/-
  Verification of the Index Snapshot Reconciliation Pipeline
  (global_indices_data_py repository, main script src/index.js together
  with src/save_entry.js).

  Shallow embedding conventions:
  * Strings are Lean `String`; the JS `toUpperCase`/`toLowerCase` calls
    (applied to ASCII index names) are modelled by mapping
    `Char.toUpper`/`Char.toLower`.
  * Close values are `Rat`: every numeric value the pipeline handles is a
    finite decimal produced by the same parser, so exact rationals model
    the equality comparisons (`last.close === closeVal`) faithfully.
  * Dates are `Nat` day indices: the pipeline only ever stores
    UTC-midnight instants built from a `YYYY-MM-DD` string and compares
    day substrings (`toISOString().split('T')[0]`), so a calendar day is
    the whole information content of a stored date.
  * The MongoDB collection is a `List StoredRecord` in insertion order.
    `findOne({index}).sort({date:-1})` is modelled as the first record
    attaining the maximal date among records of that index;
    `updateOne(filter, {$set}, {upsert:true})` updates the first record
    matching the filter or appends a fresh one.
  * The `date-holidays` library is external; a holiday oracle
    `Cal → Nat → Bool` is passed as a parameter.
  * `axios.get` outcomes are given by a trace `Nat → Except ε ρ`
    (outcome of the i-th attempt); `setTimeout` delays are recorded as a
    list of waited milliseconds.
-/

import Mathlib

namespace GlobalIndices

/-! ## Data model -/

/-- One element of the upstream payload `data` array (src/index.js:166,181). -/
structure SnapshotEntry where
  name : String
  prev_close : String
deriving DecidableEq

/-- One document of the `global_indices_historical_data` collection
(schema at src/index.js:63-67). -/
structure StoredRecord where
  index : String
  date : Nat
  close : Rat
deriving DecidableEq

/-- The market holiday calendars instantiated at src/index.js:26-33. -/
inductive Cal
  | IN | US | JP | GB | HK | DE | FR | KR
deriving DecidableEq

/-- A tracked index (src/index.js:85-96). -/
structure TrackedIndex where
  key : String
  label : String
  holidayCalendar : Cal
deriving DecidableEq

/-- The tracked-index table of src/index.js:85-96. -/
def indices : List TrackedIndex :=
  [ ⟨"gift-nifty", "GIFT NIFTY", Cal.IN⟩,
    ⟨"dow",        "Dow",        Cal.US⟩,
    ⟨"nasdaq",     "NASDAQ",     Cal.US⟩,
    ⟨"sandp",      "S&P",        Cal.US⟩,
    ⟨"nikkei",     "NIKKEI",     Cal.JP⟩,
    ⟨"hang",       "HANG SENG",  Cal.HK⟩,
    ⟨"dax",        "DAX",        Cal.DE⟩,
    ⟨"cac",        "CAC",        Cal.FR⟩,
    ⟨"ftse",       "FTSE 100",   Cal.GB⟩,
    ⟨"kospi",      "KOSPI",      Cal.KR⟩ ]

/-! ## String helpers (JS string methods on ASCII data) -/

/-- `needle.isPrefixOf hay` for character lists, written out (JS `startsWith`). -/
def startsL : List Char → List Char → Bool
  | _, [] => true
  | [], _ :: _ => false
  | a :: as, b :: bs => a == b && startsL as bs

/-- JS `String.prototype.includes`: some suffix of `hay` starts with `needle`. -/
def containsL : List Char → List Char → Bool
  | [], needle => needle.isEmpty
  | hay@(_ :: t), needle => startsL hay needle || containsL t needle

/-- JS `toUpperCase` on the ASCII names the pipeline handles. -/
def upperStr (s : String) : String := String.mk (s.data.map Char.toUpper)

/-- JS `toLowerCase` on the ASCII names the pipeline handles. -/
def lowerStr (s : String) : String := String.mk (s.data.map Char.toLower)

/-- JS `s.startsWith(p)`. -/
def startsWithStr (s p : String) : Bool := startsL s.data p.data

/-- JS `s.includes(p)`. -/
def includesStr (s p : String) : Bool := containsL s.data p.data

/-! ## Entry Resolver (findEntry, src/index.js:99-126) -/

/-- `findEntry(data, searchLabel)` from src/index.js:99-126: a Dow special
case (first entry whose lower-cased name starts with "dow", tried only for
the labels "DOW"/"Dow" and only short-circuiting on a hit), then the first
entry whose upper-cased name starts with the label as given, then the first
entry whose upper-cased name contains the label as given. -/
def findEntry (data : List SnapshotEntry) (searchLabel : String) : Option SnapshotEntry :=
  let dowEntry : Option SnapshotEntry :=
    if searchLabel == "DOW" || searchLabel == "Dow" then
      data.find? (fun entry => startsWithStr (lowerStr entry.name) "dow")
    else
      none
  match dowEntry with
  | some e => some e
  | none =>
    match data.find? (fun e => startsWithStr (upperStr e.name) searchLabel) with
    | some e => some e
    | none => data.find? (fun e => includesStr (upperStr e.name) searchLabel)

/-- The resolution strategy the spec describes for the general tiers
(no special case): first prefix match, then substring match.  Kept as a
separate definition so the Dow fallthrough can be compared against it. -/
def generalResolve (data : List SnapshotEntry) (searchLabel : String) : Option SnapshotEntry :=
  match data.find? (fun e => startsWithStr (upperStr e.name) searchLabel) with
  | some e => some e
  | none => data.find? (fun e => includesStr (upperStr e.name) searchLabel)

/-! ## Value Normalizer (src/index.js:181-187) -/

/-- `raw.replace(/[^0-9.]/g, '')`: keep only digits and decimal points. -/
def stripNonNumeric (s : String) : List Char :=
  s.data.filter (fun c => c.isDigit || c == '.')

/-- Numeric value of a digit list, most significant first. -/
def digitsToNat (ds : List Char) : Nat :=
  ds.foldl (fun n c => 10 * n + (c.toNat - 48)) 0

/-- Value of `intPart.fracPart` as an exact rational. -/
def floatOfParts (intPart fracPart : List Char) : Rat :=
  mkRat (digitsToNat intPart * 10 ^ fracPart.length + digitsToNat fracPart)
    (10 ^ fracPart.length)

/-- JS `parseFloat` restricted to the digit/dot strings `parseClose` feeds
it: parse the longest prefix of the form `digits`, `digits.`, `digits.digits`
or `.digits`; `none` (NaN) when no such non-empty prefix exists. -/
def parseFloatPrefix (cs : List Char) : Option Rat :=
  match cs.drop (cs.takeWhile Char.isDigit).length with
  | '.' :: rest =>
    if (cs.takeWhile Char.isDigit).isEmpty && (rest.takeWhile Char.isDigit).isEmpty
    then none
    else some (floatOfParts (cs.takeWhile Char.isDigit) (rest.takeWhile Char.isDigit))
  | _ =>
    if (cs.takeWhile Char.isDigit).isEmpty then none
    else some (floatOfParts (cs.takeWhile Char.isDigit) [])

/-- `parseFloat(raw.replace(/[^0-9.]/g, ''))` with the `isNaN` guard of
src/index.js:182-186: `none` models the NaN/skip case. -/
def parseClose (raw : String) : Option Rat :=
  parseFloatPrefix (stripNonNumeric raw)

/-! ## Reconciliation Store -/

/-- `CloseModel.findOne({ index: key }).sort({ date: -1 })`
(src/index.js:191): the first record attaining the maximal date among the
records of that index (insertion order breaks ties), `none` when the index
has no records. -/
def findLatest : List StoredRecord → String → Option StoredRecord
  | [], _ => none
  | r :: rs, key =>
    if r.index == key then
      match findLatest rs key with
      | none => some r
      | some b => if r.date < b.date then some b else some r
    else
      findLatest rs key

/-- Whether some record matches the upsert filter `{index: key, date: d}`. -/
def hasKeyDate (store : List StoredRecord) (key : String) (d : Nat) : Bool :=
  store.any (fun r => r.index == key && r.date == d)

/-- `$set: { close: c }` applied to the first record matching the filter. -/
def setCloseFirst : List StoredRecord → String → Nat → Rat → List StoredRecord
  | [], _, _, _ => []
  | r :: rs, key, d, c =>
    if r.index == key && r.date == d then { r with close := c } :: rs
    else r :: setCloseFirst rs key d c

/-- `CloseModel.updateOne({index: key, date}, {$set: {close}}, {upsert: true})`
(src/index.js:203-207): update the first matching document, or insert a
fresh one when none matches. -/
def upsertOne (store : List StoredRecord) (key : String) (d : Nat) (c : Rat) :
    List StoredRecord :=
  if hasKeyDate store key d then setCloseFirst store key d c
  else store ++ [⟨key, d, c⟩]

inductive ReconcileResult
  | skippedUnchanged
  | written
deriving DecidableEq

/-- The per-index store step of src/index.js:189-208: read the latest record
for the key; skip when its stored day equals the candidate day AND its close
equals the candidate close; otherwise upsert on the exact (key, day) pair. -/
def reconcileStep (store : List StoredRecord) (key : String) (d : Nat) (c : Rat) :
    List StoredRecord × ReconcileResult :=
  match findLatest store key with
  | some last =>
    if last.date = d ∧ last.close = c then (store, ReconcileResult.skippedUnchanged)
    else (upsertOne store key d c, ReconcileResult.written)
  | none => (upsertOne store key d c, ReconcileResult.written)

inductive SaveResult
  | skipped
  | saved
deriving DecidableEq

/-- The per-index store step of src/save_entry.js:192-224: same duplicate
check as the main pipeline, but the write is a plain document insert
(`new CloseModel(...).save()`), not an upsert. -/
def saveEntryStep (store : List StoredRecord) (key : String) (d : Nat) (c : Rat) :
    List StoredRecord × SaveResult :=
  match findLatest store key with
  | some last =>
    if last.date = d ∧ last.close = c then (store, SaveResult.skipped)
    else (store ++ [⟨key, d, c⟩], SaveResult.saved)
  | none => (store ++ [⟨key, d, c⟩], SaveResult.saved)

/-- The natural key of a stored record: the (indexKey, tradingDate) pair. -/
def recKey (r : StoredRecord) : String × Nat := (r.index, r.date)

/-- No key occurs twice in the list. -/
def nodupKeys : List (String × Nat) → Bool
  | [] => true
  | k :: ks => ks.all (fun b => !(k == b)) && nodupKeys ks

/-- "At most one record per (indexKey, tradingDate) pair" as a boolean
predicate on the store. -/
def uniqueKeysB (store : List StoredRecord) : Bool :=
  nodupKeys (store.map recKey)

/-! ## Orchestrator (fetchAndStoreIndicesData, src/index.js:136-239) -/

/-- The parsed response body `res.data`: `success` flag and the `data`
field, `none` modelling a value that is not an array
(src/index.js:141). -/
structure ApiResponse where
  success : Bool
  data : Option (List SnapshotEntry)

inductive StepOutcome
  | notFound
  | holidaySkip
  | parseFail
  | skippedUnchanged
  | stored
deriving DecidableEq

/-- One iteration of the per-index loop of src/index.js:165-224 (normal
mode): resolve the entry, check the holiday calendar for the previous day,
parse the close, then run the reconcile step. -/
def processIndex (holiday : Cal → Nat → Bool) (apiData : List SnapshotEntry)
    (yesterday : Nat) (store : List StoredRecord) (ti : TrackedIndex) :
    List StoredRecord × StepOutcome :=
  match findEntry apiData ti.label with
  | none => (store, StepOutcome.notFound)
  | some entry =>
    if holiday ti.holidayCalendar yesterday then (store, StepOutcome.holidaySkip)
    else
      match parseClose entry.prev_close with
      | none => (store, StepOutcome.parseFail)
      | some closeVal =>
        match reconcileStep store ti.key yesterday closeVal with
        | (s, ReconcileResult.skippedUnchanged) => (s, StepOutcome.skippedUnchanged)
        | (s, ReconcileResult.written) => (s, StepOutcome.stored)

inductive RunResult
  | aborted
  | completed (outcomes : List StepOutcome)
deriving DecidableEq

/-- The `for (const {...} of indices)` loop, threading the store. -/
def pipelineFold (holiday : Cal → Nat → Bool) (apiData : List SnapshotEntry)
    (yesterday : Nat) : List TrackedIndex → List StoredRecord →
    List StoredRecord × List StepOutcome
  | [], store => (store, [])
  | ti :: tis, store =>
    let p := processIndex holiday apiData yesterday store ti
    let rest := pipelineFold holiday apiData yesterday tis p.1
    (rest.1, p.2 :: rest.2)

/-- `fetchAndStoreIndicesData` after a fetch that returned a body
(src/index.js:141-234): abort on `!success || !Array.isArray(data)`
(the outer catch turns the throw into a plain return), otherwise process
every tracked index in order. -/
def runPipeline (holiday : Cal → Nat → Bool) (resp : ApiResponse)
    (yesterday : Nat) (store : List StoredRecord) : List StoredRecord × RunResult :=
  match resp.data, resp.success with
  | some apiData, true =>
    let p := pipelineFold holiday apiData yesterday indices store
    (p.1, RunResult.completed p.2)
  | _, _ => (store, RunResult.aborted)

/-! ## Resilient Fetcher (fetchWithRetry, src/index.js:47-57) -/

/-- The retry loop body starting at attempt `i` with `rem` retries left:
returns the result, the list of delays waited, and the number of attempts
made. -/
def fetchAttemptsGo {ε ρ : Type} (trace : Nat → Except ε ρ) (delayMs : Nat) :
    Nat → Nat → Except ε ρ × List Nat × Nat
  | i, 0 => (trace i, [], 1)
  | i, rem + 1 =>
    match trace i with
    | Except.ok r => (Except.ok r, [], 1)
    | Except.error _ =>
      let rest := fetchAttemptsGo trace delayMs (i + 1) rem
      (rest.1, delayMs :: rest.2.1, rest.2.2 + 1)

/-- `fetchWithRetry(url, attempts = 3, delayMs = 1000)` of
src/index.js:47-57, over an attempt-outcome trace: attempt `i` yields
`trace i`; a failed non-final attempt waits `delayMs` and retries; the
final attempt's error propagates. -/
def fetchWithRetry {ε ρ : Type} (trace : Nat → Except ε ρ) (attempts delayMs : Nat) :
    Except ε ρ × List Nat × Nat :=
  fetchAttemptsGo trace delayMs 1 (attempts - 1)

/-- A whole run of `fetchAndStoreIndicesData` (src/index.js:136-239):
fetch with the default 3 attempts / 1000ms delay, then run the pipeline;
a transport-level failure of all attempts is swallowed by the outer catch
(the run aborts, the store is untouched).  The third component is the
number of fetch attempts made. -/
def fullRun (holiday : Cal → Nat → Bool) (trace : Nat → Except String ApiResponse)
    (yesterday : Nat) (store : List StoredRecord) :
    List StoredRecord × RunResult × Nat :=
  match fetchWithRetry trace 3 1000 with
  | (Except.ok resp, _, used) =>
    let p := runPipeline holiday resp yesterday store
    (p.1, p.2, used)
  | (Except.error _, _, used) => (store, RunResult.aborted, used)

/-- `fetchAndStoreIndicesData` as awaited by callers: the function catches
every error internally (src/index.js:235-238) and resolves normally, so its
promise never rejects. -/
def fetchAndStoreOutcome (holiday : Cal → Nat → Bool)
    (trace : Nat → Except String ApiResponse) (yesterday : Nat)
    (store : List StoredRecord) :
    Except String (List StoredRecord × RunResult × Nat) :=
  Except.ok (fullRun holiday trace yesterday store)

/-- The `GET /trigger` handler (src/index.js:306-313): await the run; on
normal resolution respond 200 with `{success: true}`, on rejection respond
500.  Result: (store after the run, HTTP status, body success flag). -/
def triggerHandler (holiday : Cal → Nat → Bool)
    (trace : Nat → Except String ApiResponse) (yesterday : Nat)
    (store : List StoredRecord) : List StoredRecord × Nat × Bool :=
  match fetchAndStoreOutcome holiday trace yesterday store with
  | Except.ok out => (out.1, 200, true)
  | Except.error _ => (store, 500, false)

/-! ## Store lemmas -/

theorem findLatest_eq_none {key : String} :
    ∀ {store : List StoredRecord},
      findLatest store key = none ↔ ∀ r ∈ store, r.index ≠ key := by
  intro store
  induction store with
  | nil => simp [findLatest]
  | cons r rs ih =>
    simp only [findLatest]
    by_cases hr : (r.index == key) = true
    · rw [if_pos hr]
      have hrk : r.index = key := eq_of_beq hr
      constructor
      · intro h
        exfalso
        split at h
        · exact Option.noConfusion h
        · split at h <;> exact Option.noConfusion h
      · intro h
        exact absurd hrk (h r (List.mem_cons_self r rs))
    · rw [if_neg hr]
      have hrk : r.index ≠ key := fun hh => hr (by simp [hh])
      rw [ih]
      constructor
      · intro h x hm
        rcases List.mem_cons.mp hm with h1 | h2
        · rw [h1]; exact hrk
        · exact h x h2
      · intro h x hm
        exact h x (List.mem_cons_of_mem _ hm)

theorem findLatest_mem {key : String} :
    ∀ {store : List StoredRecord} {last : StoredRecord},
      findLatest store key = some last → last ∈ store ∧ last.index = key := by
  intro store
  induction store with
  | nil => intro last h; exact absurd h (by simp [findLatest])
  | cons r rs ih =>
    intro last h
    simp only [findLatest] at h
    by_cases hr : (r.index == key) = true
    · rw [if_pos hr] at h
      split at h
      · injection h with h
        rw [← h]
        exact ⟨List.mem_cons_self r rs, eq_of_beq hr⟩
      · rename_i b hfl
        split at h
        · injection h with h
          rw [← h]
          have hb := ih hfl
          exact ⟨List.mem_cons_of_mem _ hb.1, hb.2⟩
        · injection h with h
          rw [← h]
          exact ⟨List.mem_cons_self r rs, eq_of_beq hr⟩
    · rw [if_neg hr] at h
      have hb := ih h
      exact ⟨List.mem_cons_of_mem _ hb.1, hb.2⟩

theorem findLatest_max {key : String} :
    ∀ {store : List StoredRecord} {last : StoredRecord},
      findLatest store key = some last →
      ∀ r ∈ store, r.index = key → r.date ≤ last.date := by
  intro store
  induction store with
  | nil => intro last h; exact absurd h (by simp [findLatest])
  | cons r rs ih =>
    intro last h x hx hxk
    simp only [findLatest] at h
    by_cases hr : (r.index == key) = true
    · rw [if_pos hr] at h
      split at h
      · rename_i hfl
        injection h with h
        rw [← h]
        rcases List.mem_cons.mp hx with h1 | h2
        · rw [h1]
        · exact absurd hxk (findLatest_eq_none.mp hfl x h2)
      · rename_i b hfl
        split at h
        · rename_i hd
          injection h with h
          rw [← h]
          rcases List.mem_cons.mp hx with h1 | h2
          · rw [h1]; exact Nat.le_of_lt hd
          · exact ih hfl x h2 hxk
        · rename_i hd
          injection h with h
          rw [← h]
          rcases List.mem_cons.mp hx with h1 | h2
          · rw [h1]
          · exact le_trans (ih hfl x h2 hxk) (Nat.le_of_not_lt hd)
    · rw [if_neg hr] at h
      rcases List.mem_cons.mp hx with h1 | h2
      · exfalso; apply hr; rw [h1] at hxk; simp [hxk]
      · exact ih h x h2 hxk

theorem findLatest_of_unique_max {key : String} :
    ∀ {store : List StoredRecord} {last : StoredRecord},
      last ∈ store → last.index = key →
      (∀ r ∈ store, r.index = key → r.date ≤ last.date) →
      (∀ r ∈ store, r.index = key → r.date = last.date → r = last) →
      findLatest store key = some last := by
  intro store
  induction store with
  | nil => intro last h; exact absurd h (by simp)
  | cons o os ih =>
    intro last hmem hkey hmax huniq
    simp only [findLatest]
    by_cases ho : (o.index == key) = true
    · rw [if_pos ho]
      have hok : o.index = key := eq_of_beq ho
      split
      · rename_i hfl
        have hnone := findLatest_eq_none.mp hfl
        rcases List.mem_cons.mp hmem with h1 | h2
        · rw [h1]
        · exact absurd hkey (hnone last h2)
      · rename_i b hfl
        have hb := findLatest_mem hfl
        have hbmax := findLatest_max hfl
        have hble : b.date ≤ last.date := hmax b (List.mem_cons_of_mem _ hb.1) hb.2
        split
        · rename_i hd
          rcases List.mem_cons.mp hmem with h1 | h2
          · exfalso; rw [h1] at hble; exact absurd hd (Nat.not_lt.mpr hble)
          · have hlb : last.date ≤ b.date := hbmax last h2 hkey
            have hbd : b.date = last.date := Nat.le_antisymm hble hlb
            rw [huniq b (List.mem_cons_of_mem _ hb.1) hb.2 hbd]
        · rename_i hd
          rcases List.mem_cons.mp hmem with h1 | h2
          · rw [h1]
          · have h1b : last.date ≤ b.date := hbmax last h2 hkey
            have h2d : b.date ≤ o.date := Nat.le_of_not_lt hd
            have h3 : o.date ≤ last.date := hmax o (List.mem_cons_self o os) hok
            have hod : o.date = last.date :=
              Nat.le_antisymm h3 (le_trans h1b h2d)
            rw [huniq o (List.mem_cons_self o os) hok hod]
    · rw [if_neg ho]
      rcases List.mem_cons.mp hmem with h1 | h2
      · exfalso; apply ho; rw [h1] at hkey; simp [hkey]
      · exact ih h2 hkey
          (fun r hr hrk => hmax r (List.mem_cons_of_mem _ hr) hrk)
          (fun r hr hrk hrd => huniq r (List.mem_cons_of_mem _ hr) hrk hrd)

theorem band_elim {a b : Bool} (h : (a && b) = true) : a = true ∧ b = true := by
  simp at h
  exact h

theorem nodupKeys_cons {k : String × Nat} {ks : List (String × Nat)} :
    nodupKeys (k :: ks) = true ↔ (∀ b ∈ ks, k ≠ b) ∧ nodupKeys ks = true := by
  simp [nodupKeys, List.all_eq_true]

theorem uniqueKeysB_cons {r : StoredRecord} {rs : List StoredRecord} :
    uniqueKeysB (r :: rs) = true ↔
      (∀ b ∈ rs, recKey r ≠ recKey b) ∧ uniqueKeysB rs = true := by
  simp only [uniqueKeysB, List.map_cons]
  rw [nodupKeys_cons]
  constructor
  · rintro ⟨h1, h2⟩
    exact ⟨fun b hb => h1 (recKey b) (List.mem_map_of_mem _ hb), h2⟩
  · rintro ⟨h1, h2⟩
    refine ⟨fun kb hkb => ?_, h2⟩
    rcases List.mem_map.mp hkb with ⟨b, hb, rfl⟩
    exact h1 b hb

theorem uniqueKeysB_elim :
    ∀ {store : List StoredRecord}, uniqueKeysB store = true →
      ∀ {r1 r2 : StoredRecord}, r1 ∈ store → r2 ∈ store →
        recKey r1 = recKey r2 → r1 = r2 := by
  intro store
  induction store with
  | nil => intro _ r1 r2 h; exact absurd h (by simp)
  | cons o os ih =>
    intro hu r1 r2 h1 h2 hk
    rcases uniqueKeysB_cons.mp hu with ⟨hall, htl⟩
    rcases List.mem_cons.mp h1 with e1 | m1 <;> rcases List.mem_cons.mp h2 with e2 | m2
    · rw [e1, e2]
    · rw [e1] at hk ⊢; exact absurd hk (hall r2 m2)
    · rw [e2] at hk ⊢; exact absurd hk.symm (hall r1 m1)
    · exact ih htl m1 m2 hk

theorem hasKeyDate_false_iff {store : List StoredRecord} {key : String} {d : Nat} :
    hasKeyDate store key d = false ↔
      ∀ r ∈ store, ¬(r.index = key ∧ r.date = d) := by
  simp [hasKeyDate, List.any_eq_false]

theorem setCloseFirst_keys (key : String) (d : Nat) (c : Rat) :
    ∀ (store : List StoredRecord),
      (setCloseFirst store key d c).map recKey = store.map recKey := by
  intro store
  induction store with
  | nil => rfl
  | cons o os ih =>
    simp only [setCloseFirst]
    by_cases h : (o.index == key && o.date == d) = true
    · rw [if_pos h]
      simp only [List.map_cons]
      rfl
    · rw [if_neg h]
      simp only [List.map_cons, ih]

theorem mem_setCloseFirst_iff {key : String} {d : Nat} {c : Rat} :
    ∀ {store : List StoredRecord}, uniqueKeysB store = true →
      hasKeyDate store key d = true →
      ∀ r : StoredRecord,
        (r ∈ setCloseFirst store key d c ↔
          r = ⟨key, d, c⟩ ∨ (r ∈ store ∧ ¬(r.index = key ∧ r.date = d))) := by
  intro store
  induction store with
  | nil => intro _ h; exact absurd h (by simp [hasKeyDate])
  | cons o os ih =>
    intro hu hk r
    rcases uniqueKeysB_cons.mp hu with ⟨hall, htl⟩
    simp only [setCloseFirst]
    by_cases hm : (o.index == key && o.date == d) = true
    · rw [if_pos hm]
      have hoi : o.index = key := eq_of_beq (band_elim hm).1
      have hod : o.date = d := eq_of_beq (band_elim hm).2
      have hhead : ({ o with close := c } : StoredRecord) = ⟨key, d, c⟩ := by
        cases o
        simp at hoi hod
        rw [hoi, hod]
      rw [hhead]
      constructor
      · intro hr
        rcases List.mem_cons.mp hr with h1 | h2
        · exact Or.inl h1
        · refine Or.inr ⟨List.mem_cons_of_mem _ h2, fun hc => ?_⟩
          apply hall r h2
          simp only [recKey, hoi, hod, hc.1, hc.2]
      · intro hr
        rcases hr with h1 | ⟨h2, h3⟩
        · rw [h1]; exact List.mem_cons_self _ _
        · rcases List.mem_cons.mp h2 with h4 | h5
          · exact absurd ⟨h4 ▸ hoi, h4 ▸ hod⟩ h3
          · exact List.mem_cons_of_mem _ h5
    · rw [if_neg hm]
      have hknot : ¬(o.index = key ∧ o.date = d) := by
        intro hc
        exact hm (by simp [hc.1, hc.2])
      have hkos : hasKeyDate os key d = true := by
        have h0 := hk
        simp only [hasKeyDate, List.any_cons] at h0
        cases hor : (o.index == key && o.date == d) with
        | true =>
          exact absurd ⟨eq_of_beq (band_elim hor).1,
            eq_of_beq (band_elim hor).2⟩ hknot
        | false =>
          rw [hor] at h0
          simpa [hasKeyDate] using h0
      constructor
      · intro hr
        rcases List.mem_cons.mp hr with h1 | h2
        · exact Or.inr ⟨h1 ▸ List.mem_cons_self o os, h1 ▸ hknot⟩
        · rcases (ih htl hkos r).mp h2 with h3 | ⟨h4, h5⟩
          · exact Or.inl h3
          · exact Or.inr ⟨List.mem_cons_of_mem _ h4, h5⟩
      · intro hr
        rcases hr with h1 | ⟨h2, h3⟩
        · exact List.mem_cons_of_mem _ ((ih htl hkos r).mpr (Or.inl h1))
        · rcases List.mem_cons.mp h2 with h4 | h5
          · rw [h4]; exact List.mem_cons_self _ _
          · exact List.mem_cons_of_mem _ ((ih htl hkos r).mpr (Or.inr ⟨h5, h3⟩))

theorem mem_upsertOne_iff {store : List StoredRecord} {key : String} {d : Nat} {c : Rat}
    (hu : uniqueKeysB store = true) (r : StoredRecord) :
    r ∈ upsertOne store key d c ↔
      r = ⟨key, d, c⟩ ∨ (r ∈ store ∧ ¬(r.index = key ∧ r.date = d)) := by
  unfold upsertOne
  by_cases h : hasKeyDate store key d = true
  · rw [if_pos h]
    exact mem_setCloseFirst_iff hu h r
  · rw [if_neg h]
    have hf : hasKeyDate store key d = false := by
      revert h; cases hasKeyDate store key d <;> simp
    have hnot := hasKeyDate_false_iff.mp hf
    constructor
    · intro hr
      rcases List.mem_append.mp hr with h1 | h2
      · exact Or.inr ⟨h1, hnot r h1⟩
      · simp at h2
        exact Or.inl h2
    · intro hr
      rcases hr with h1 | ⟨h2, _⟩
      · apply List.mem_append.mpr
        right
        simp [h1]
      · exact List.mem_append.mpr (Or.inl h2)

theorem nodupKeys_append_one :
    ∀ {ks : List (String × Nat)} {k : String × Nat},
      nodupKeys ks = true → (∀ b ∈ ks, b ≠ k) → nodupKeys (ks ++ [k]) = true := by
  intro ks
  induction ks with
  | nil => intro k _ _; rfl
  | cons a as ih =>
    intro k h hnot
    rcases nodupKeys_cons.mp h with ⟨h1, h2⟩
    have htail := ih h2 (fun b hb => hnot b (List.mem_cons_of_mem _ hb))
    apply nodupKeys_cons.mpr
    refine ⟨?_, htail⟩
    intro b hb
    rcases List.mem_append.mp hb with hb1 | hb2
    · exact h1 b hb1
    · simp at hb2
      rw [hb2]
      exact fun he => hnot a (List.mem_cons_self a as) he

theorem uniqueKeysB_upsertOne {store : List StoredRecord} {key : String} {d : Nat} {c : Rat}
    (hu : uniqueKeysB store = true) :
    uniqueKeysB (upsertOne store key d c) = true := by
  unfold upsertOne
  by_cases h : hasKeyDate store key d = true
  · rw [if_pos h]
    unfold uniqueKeysB
    rw [setCloseFirst_keys]
    exact hu
  · rw [if_neg h]
    have hf : hasKeyDate store key d = false := by
      revert h; cases hasKeyDate store key d <;> simp
    have hnot := hasKeyDate_false_iff.mp hf
    unfold uniqueKeysB at hu ⊢
    rw [List.map_append]
    apply nodupKeys_append_one hu
    intro b hb he
    rcases List.mem_map.mp hb with ⟨rb, hrb, hkb⟩
    apply hnot rb hrb
    rw [← hkb] at he
    have h1 : rb.index = key := congrArg Prod.fst he
    have h2 : rb.date = d := congrArg Prod.snd he
    exact ⟨h1, h2⟩

theorem filter_key_length_one :
    ∀ {store : List StoredRecord}, uniqueKeysB store = true →
      ∀ {x : StoredRecord}, x ∈ store →
        (store.filter (fun r => r.index == x.index && r.date == x.date)).length = 1 := by
  intro store
  induction store with
  | nil => intro _ x h; exact absurd h (by simp)
  | cons o os ih =>
    intro hu x hx
    rcases uniqueKeysB_cons.mp hu with ⟨hall, htl⟩
    by_cases ho : (o.index == x.index && o.date == x.date) = true
    · rw [List.filter_cons, if_pos ho]
      have hnil : os.filter (fun r => r.index == x.index && r.date == x.date) = [] := by
        apply List.filter_eq_nil_iff.mpr
        intro b hb hbm
        apply hall b hb
        have h1 : o.index = x.index := eq_of_beq (band_elim ho).1
        have h2 : o.date = x.date := eq_of_beq (band_elim ho).2
        have h3 : b.index = x.index := eq_of_beq (band_elim hbm).1
        have h4 : b.date = x.date := eq_of_beq (band_elim hbm).2
        simp only [recKey, h1, h2, h3, h4]
      rw [hnil]
      rfl
    · rw [List.filter_cons, if_neg ho]
      have hxos : x ∈ os := by
        rcases List.mem_cons.mp hx with h1 | h2
        · exfalso
          apply ho
          rw [h1]
          simp
        · exact h2
      exact ih htl hxos

theorem record_ext {a b : StoredRecord} (h1 : a.index = b.index)
    (h2 : a.date = b.date) (h3 : a.close = b.close) : a = b := by
  cases a
  cases b
  simp_all

theorem reconcileStep_eq_none (store : List StoredRecord) (key : String) (d : Nat) (c : Rat)
    (hfl : findLatest store key = none) :
    reconcileStep store key d c = (upsertOne store key d c, ReconcileResult.written) := by
  unfold reconcileStep
  rw [hfl]

theorem reconcileStep_eq_skip (store : List StoredRecord) (key : String) (d : Nat) (c : Rat)
    (last : StoredRecord) (hfl : findLatest store key = some last)
    (hc : last.date = d ∧ last.close = c) :
    reconcileStep store key d c = (store, ReconcileResult.skippedUnchanged) := by
  unfold reconcileStep
  simp only [hfl]
  rw [if_pos hc]

theorem reconcileStep_eq_write (store : List StoredRecord) (key : String) (d : Nat) (c : Rat)
    (last : StoredRecord) (hfl : findLatest store key = some last)
    (hc : ¬(last.date = d ∧ last.close = c)) :
    reconcileStep store key d c = (upsertOne store key d c, ReconcileResult.written) := by
  unfold reconcileStep
  simp only [hfl]
  rw [if_neg hc]

/-- C1 counterexample: the store holds one record (dow, day 0, close 100)
and the candidate is (dow, day 1, close 100) — same close value as the most
recently stored record, different trading date.  The claim says the write
is skipped; the code (src/index.js:192-197 requires the stored day to equal
the candidate day as well) performs the write. -/
theorem reconcile_value_only_skip_refuted :
    reconcileStep [⟨"dow", 0, 100⟩] "dow" 1 100 =
      ([⟨"dow", 0, 100⟩, ⟨"dow", 1, 100⟩], ReconcileResult.written) := by
  decide

/-- C1 (amended): a reconcile step skips the write exactly when the most
recently stored record for the indexKey has BOTH its stored day equal to
the candidate tradingDate and its close equal to the candidate closeValue;
a skip leaves the store unchanged, and in every other case a record keyed
by (indexKey, tradingDate) is upserted, overwriting any existing record for
that exact key. -/
theorem reconcile_skip_and_upsert (store : List StoredRecord) (key : String)
    (d : Nat) (c : Rat) (hu : uniqueKeysB store = true) :
    ((reconcileStep store key d c).2 = ReconcileResult.skippedUnchanged ↔
      ∃ last, findLatest store key = some last ∧ last.date = d ∧ last.close = c) ∧
    ((reconcileStep store key d c).2 = ReconcileResult.skippedUnchanged →
      (reconcileStep store key d c).1 = store) ∧
    ((reconcileStep store key d c).2 = ReconcileResult.written →
      ∀ r : StoredRecord, r ∈ (reconcileStep store key d c).1 ↔
        (r = ⟨key, d, c⟩ ∨ (r ∈ store ∧ ¬(r.index = key ∧ r.date = d)))) := by
  cases hfl : findLatest store key with
  | none =>
    rw [reconcileStep_eq_none store key d c hfl]
    refine ⟨?_, ?_, ?_⟩
    · constructor
      · intro h
        simp at h
      · rintro ⟨l, hl, _⟩
        exact Option.noConfusion hl
    · intro h
      simp at h
    · intro _ r
      exact mem_upsertOne_iff hu r
  | some last =>
    by_cases hc : last.date = d ∧ last.close = c
    · rw [reconcileStep_eq_skip store key d c last hfl hc]
      refine ⟨?_, ?_, ?_⟩
      · constructor
        · intro _
          exact ⟨last, rfl, hc⟩
        · intro _
          rfl
      · intro _
        rfl
      · intro h
        simp at h
    · rw [reconcileStep_eq_write store key d c last hfl hc]
      refine ⟨?_, ?_, ?_⟩
      · constructor
        · intro h
          simp at h
        · rintro ⟨l, hl, h2⟩
          injection hl with hl
          rw [← hl] at h2
          exact absurd h2 hc
      · intro h
        simp at h
      · intro _ r
        exact mem_upsertOne_iff hu r

/-- Witness for `reconcile_skip_and_upsert`: skip case at a concrete store. -/
theorem reconcile_skip_and_upsert_witness :
    (reconcileStep [⟨"dow", 0, (100 : Rat)⟩] "dow" 0 100).1 = [⟨"dow", 0, 100⟩] :=
  (reconcile_skip_and_upsert [⟨"dow", 0, 100⟩] "dow" 0 100 (by decide)).2.1 (by decide)

/-- C2 (code bug): starting from a store satisfying the uniqueness
invariant with one record (dow, day 0, close 100), the saveEntry write path
(src/save_entry.js:192-224) passes its duplicate check (close differs) and
then plain-inserts, leaving two records with the same (indexKey,
tradingDate) key. -/
theorem saveEntry_duplicate_key_demo :
    uniqueKeysB [⟨"dow", 0, (100 : Rat)⟩] = true ∧
    saveEntryStep [⟨"dow", 0, (100 : Rat)⟩] "dow" 0 200 =
      ([⟨"dow", 0, 100⟩, ⟨"dow", 0, 200⟩], SaveResult.saved) ∧
    uniqueKeysB [⟨"dow", 0, (100 : Rat)⟩, ⟨"dow", 0, 200⟩] = false := by
  refine ⟨by decide, by decide, by decide⟩

/-- C3 counterexample: the store holds a record for the key with a LATER
trading date (dow, day 5).  Reconciling (dow, day 3, close 200) twice: the
second invocation still finds the day-5 record as the most recent one, so
it reports written (re-issuing the upsert) instead of skipped-unchanged. -/
theorem reconcile_second_call_written :
    (reconcileStep ((reconcileStep [⟨"dow", 5, (100 : Rat)⟩] "dow" 3 200).1)
        "dow" 3 200).2 = ReconcileResult.written := by
  decide

/-- C3 (amended): when the store satisfies the uniqueness invariant and
holds no record for the indexKey dated after the candidate tradingDate (the
normal forward-advancing situation), reconciling the same (indexKey,
tradingDate, closeValue) twice leaves exactly one stored record for that
key, and the second invocation performs no write and reports
skipped-unchanged. -/
theorem reconcile_idempotent_no_future (store : List StoredRecord) (key : String)
    (d : Nat) (c : Rat) (hu : uniqueKeysB store = true)
    (hle : ∀ r ∈ store, r.index = key → r.date ≤ d) :
    reconcileStep (reconcileStep store key d c).1 key d c =
      ((reconcileStep store key d c).1, ReconcileResult.skippedUnchanged) ∧
    ((reconcileStep store key d c).1.filter
        (fun r => r.index == key && r.date == d)).length = 1 := by
  have hkey : ∀ s1 : List StoredRecord, (⟨key, d, c⟩ : StoredRecord) ∈ s1 →
      uniqueKeysB s1 = true →
      (∀ r ∈ s1, r.index = key → r.date = d → r = ⟨key, d, c⟩) →
      (∀ r ∈ s1, r.index = key → r.date ≤ d) →
      reconcileStep s1 key d c = (s1, ReconcileResult.skippedUnchanged) ∧
      (s1.filter (fun r => r.index == key && r.date == d)).length = 1 := by
    intro s1 hmem hu1 huniq1 hle1
    have hfl : findLatest s1 key = some ⟨key, d, c⟩ :=
      findLatest_of_unique_max hmem rfl hle1 huniq1
    exact ⟨reconcileStep_eq_skip s1 key d c _ hfl ⟨rfl, rfl⟩,
      filter_key_length_one hu1 hmem⟩
  have hupsert : reconcileStep (upsertOne store key d c) key d c =
      (upsertOne store key d c, ReconcileResult.skippedUnchanged) ∧
      ((upsertOne store key d c).filter
        (fun r => r.index == key && r.date == d)).length = 1 := by
    apply hkey
    · exact (mem_upsertOne_iff hu _).mpr (Or.inl rfl)
    · exact uniqueKeysB_upsertOne hu
    · intro r hr hrk hrd
      rcases (mem_upsertOne_iff hu r).mp hr with h1 | ⟨_, h3⟩
      · exact h1
      · exact absurd ⟨hrk, hrd⟩ h3
    · intro r hr hrk
      rcases (mem_upsertOne_iff hu r).mp hr with h1 | ⟨h2, _⟩
      · rw [h1]
      · exact hle r h2 hrk
  cases hfl : findLatest store key with
  | none =>
    rw [reconcileStep_eq_none store key d c hfl]
    exact hupsert
  | some last =>
    by_cases hc : last.date = d ∧ last.close = c
    · rw [reconcileStep_eq_skip store key d c last hfl hc]
      have hmemlast := findLatest_mem hfl
      have hlast : last = (⟨key, d, c⟩ : StoredRecord) :=
        record_ext hmemlast.2 hc.1 hc.2
      apply hkey
      · rw [← hlast]
        exact hmemlast.1
      · exact hu
      · intro r hr hrk hrd
        have hrl : r = last := by
          apply uniqueKeysB_elim hu hr hmemlast.1
          rw [hlast]
          simp only [recKey]
          rw [hrk, hrd]
        rw [hrl, hlast]
      · exact hle
    · rw [reconcileStep_eq_write store key d c last hfl hc]
      exact hupsert

/-- Witness for `reconcile_idempotent_no_future` at a concrete store whose
only record predates the candidate trading day. -/
theorem reconcile_idempotent_no_future_witness :
    reconcileStep (reconcileStep [⟨"dow", 2, (100 : Rat)⟩] "dow" 3 200).1 "dow" 3 200 =
      ((reconcileStep [⟨"dow", 2, (100 : Rat)⟩] "dow" 3 200).1,
        ReconcileResult.skippedUnchanged) :=
  (reconcile_idempotent_no_future [⟨"dow", 2, 100⟩] "dow" 3 200
    (by decide) (by decide)).1

/-! ## Entry-resolver lemmas (C4, C10) -/

theorem not_true_of_eq_false {b : Bool} (h : b = false) : ¬(b = true) := by
  rw [h]
  simp

theorem find_spec_first {α : Type} (p : α → Bool) :
    ∀ (l : List α), (∃ a ∈ l, p a = true) →
      ∃ n, ∃ hn : n < l.length,
        l.find? p = some (l.get ⟨n, hn⟩) ∧ p (l.get ⟨n, hn⟩) = true ∧
        ∀ m (hm : m < l.length), m < n → p (l.get ⟨m, hm⟩) = false := by
  intro l
  induction l with
  | nil =>
    rintro ⟨a, ha, _⟩
    exact absurd ha (by simp)
  | cons x xs ih =>
    rintro ⟨a, ha, hpa⟩
    by_cases hx : p x = true
    · refine ⟨0, by simp, ?_, hx, ?_⟩
      · rw [List.find?_cons_of_pos xs hx]
        rfl
      · intro m hm hm0
        exact absurd hm0 (Nat.not_lt_zero m)
    · have hxfalse : p x = false := by
        revert hx
        cases p x <;> simp
      have hxs : ∃ a ∈ xs, p a = true := by
        rcases List.mem_cons.mp ha with hh | hh
        · rw [hh] at hpa
          exact absurd hpa hx
        · exact ⟨a, hh, hpa⟩
      rcases ih hxs with ⟨n, hn, hfind, hp, hall⟩
      refine ⟨n + 1, Nat.succ_lt_succ hn, ?_, hp, ?_⟩
      · rw [List.find?_cons_of_neg xs hx]
        exact hfind
      · intro m hm hmlt
        cases m with
        | zero => exact hxfalse
        | succ k =>
          exact hall k (Nat.lt_of_succ_lt_succ hm) (Nat.lt_of_succ_lt_succ hmlt)

theorem findEntry_not_dow (data : List SnapshotEntry) (label : String)
    (h1 : label ≠ "DOW") (h2 : label ≠ "Dow") :
    findEntry data label = generalResolve data label := by
  unfold findEntry generalResolve
  have e1 : (label == "DOW") = false := beq_eq_false_iff_ne.mpr h1
  have e2 : (label == "Dow") = false := beq_eq_false_iff_ne.mpr h2
  rw [e1, e2]
  rfl

/-- C4 counterexample: the lower-case label "nasdaq" fails to resolve
against the entry "Nasdaq Composite" even though the upper-cased name
starts with the upper-cased label: the code never upper-cases the label
(src/index.js:112-123), so the comparison is not case-insensitive on the
label side. -/
theorem findEntry_lowercase_label_missed :
    findEntry [⟨"Nasdaq Composite", "100"⟩] "nasdaq" = none ∧
    startsWithStr (upperStr "Nasdaq Composite") (upperStr "nasdaq") = true := by
  exact ⟨by decide, by decide⟩

/-- C4 (amended): for labels other than "DOW"/"Dow", entry resolution
returns the first entry whose upper-cased name starts with the label AS
GIVEN, failing that the first entry whose upper-cased name contains the
label as given, and NotFound otherwise — only the entry-name side is
case-normalized, so a lower- or mixed-case label is not matched
case-insensitively. -/
theorem findEntry_tiered_resolution (data : List SnapshotEntry) (label : String)
    (h1 : label ≠ "DOW") (h2 : label ≠ "Dow") :
    ((∃ e ∈ data, startsWithStr (upperStr e.name) label = true) →
      ∃ n, ∃ hn : n < data.length,
        findEntry data label = some (data.get ⟨n, hn⟩) ∧
        startsWithStr (upperStr (data.get ⟨n, hn⟩).name) label = true ∧
        ∀ m (hm : m < data.length), m < n →
          startsWithStr (upperStr (data.get ⟨m, hm⟩).name) label = false) ∧
    ((∀ e ∈ data, startsWithStr (upperStr e.name) label = false) →
      ((∃ e ∈ data, includesStr (upperStr e.name) label = true) →
        ∃ n, ∃ hn : n < data.length,
          findEntry data label = some (data.get ⟨n, hn⟩) ∧
          includesStr (upperStr (data.get ⟨n, hn⟩).name) label = true ∧
          ∀ m (hm : m < data.length), m < n →
            includesStr (upperStr (data.get ⟨m, hm⟩).name) label = false) ∧
      ((∀ e ∈ data, includesStr (upperStr e.name) label = false) →
        findEntry data label = none)) := by
  have hng := findEntry_not_dow data label h1 h2
  refine ⟨?_, fun hall => ⟨?_, ?_⟩⟩
  · intro hex
    rcases find_spec_first (fun e => startsWithStr (upperStr e.name) label) data hex with
      ⟨n, hn, hfind, hp, hprev⟩
    refine ⟨n, hn, ?_, hp, hprev⟩
    rw [hng]
    unfold generalResolve
    rw [hfind]
  · intro hex
    have hpn : data.find? (fun e => startsWithStr (upperStr e.name) label) = none :=
      List.find?_eq_none.mpr (fun e he => not_true_of_eq_false (hall e he))
    rcases find_spec_first (fun e => includesStr (upperStr e.name) label) data hex with
      ⟨n, hn, hfind, hp, hprev⟩
    refine ⟨n, hn, ?_, hp, hprev⟩
    rw [hng]
    unfold generalResolve
    rw [hpn, hfind]
  · intro hinc
    have hpn : data.find? (fun e => startsWithStr (upperStr e.name) label) = none :=
      List.find?_eq_none.mpr (fun e he => not_true_of_eq_false (hall e he))
    have hcn : data.find? (fun e => includesStr (upperStr e.name) label) = none :=
      List.find?_eq_none.mpr (fun e he => not_true_of_eq_false (hinc e he))
    rw [hng]
    unfold generalResolve
    rw [hpn, hcn]

/-- Witness for `findEntry_tiered_resolution`: a label matching no entry in
either tier resolves to NotFound. -/
theorem findEntry_tiered_resolution_witness :
    findEntry [⟨"Dow Jones", "1"⟩] "KOSPI" = none :=
  ((findEntry_tiered_resolution [⟨"Dow Jones", "1"⟩] "KOSPI" (by decide) (by decide)).2
    (by decide)).2 (by decide)

/-- C10: for the labels "DOW"/"Dow", when no entry name lower-cases to
something starting with "dow", the special case does not report NotFound:
resolution falls through to the general prefix and substring tiers
(src/index.js:101-109 returns from the special case only on a hit). -/
theorem dow_special_case_fallthrough (data : List SnapshotEntry) (label : String)
    (hl : label = "DOW" ∨ label = "Dow")
    (hnone : ∀ e ∈ data, startsWithStr (lowerStr e.name) "dow" = false) :
    findEntry data label = generalResolve data label := by
  have hfd : data.find? (fun entry => startsWithStr (lowerStr entry.name) "dow") = none :=
    List.find?_eq_none.mpr (fun e he => not_true_of_eq_false (hnone e he))
  unfold findEntry generalResolve
  rcases hl with h | h <;> rw [h] <;> rw [hfd] <;> rfl

/-- Witness for `dow_special_case_fallthrough`: "ASX Dow" does not start
with "dow" after lower-casing, so label "DOW" resolves through the general
tiers (here via the substring tier). -/
theorem dow_special_case_fallthrough_witness :
    findEntry [⟨"ASX Dow", "1"⟩] "DOW" = generalResolve [⟨"ASX Dow", "1"⟩] "DOW" :=
  dow_special_case_fallthrough [⟨"ASX Dow", "1"⟩] "DOW" (Or.inl rfl) (by decide)

/-! ## Value-normalizer lemmas (C5) -/

/-- The stripped remainder cannot begin a number: it is empty, or starts
with a non-digit (necessarily a decimal point after stripping) that is not
followed by a digit. -/
def noNumPrefix : List Char → Bool
  | [] => true
  | c :: rest =>
    !c.isDigit &&
      (match rest with
       | [] => true
       | c2 :: _ => !c2.isDigit)

theorem parseFloatPrefix_dot_cons (rest : List Char) :
    parseFloatPrefix ('.' :: rest) =
      (if (rest.takeWhile Char.isDigit).isEmpty then none
       else some (floatOfParts [] (rest.takeWhile Char.isDigit))) := rfl

theorem parseFloatPrefix_digit_head {c : Char} {rest : List Char}
    (hd : c.isDigit = true) : parseFloatPrefix (c :: rest) ≠ none := by
  intro h
  unfold parseFloatPrefix at h
  rw [List.takeWhile_cons_of_pos hd] at h
  rw [List.length_cons, List.drop_succ_cons] at h
  split at h <;> simp at h

theorem parseFloatPrefix_none_iff :
    ∀ {cs : List Char}, (∀ c ∈ cs, c.isDigit = true ∨ c = '.') →
      (parseFloatPrefix cs = none ↔ noNumPrefix cs = true) := by
  intro cs hmem
  cases cs with
  | nil => decide
  | cons c rest =>
    by_cases hd : c.isDigit = true
    · constructor
      · intro h
        exact absurd h (parseFloatPrefix_digit_head hd)
      · intro h
        simp [noNumPrefix, hd] at h
    · have hdot : c = '.' := Or.resolve_left (hmem c (List.mem_cons_self c rest)) hd
      subst hdot
      rw [parseFloatPrefix_dot_cons]
      cases rest with
      | nil => decide
      | cons c2 t =>
        by_cases hd2 : c2.isDigit = true
        · rw [List.takeWhile_cons_of_pos hd2]
          constructor
          · intro h
            simp at h
          · intro h
            simp [noNumPrefix, hd2] at h
        · have hdot2 : c2 = '.' :=
            Or.resolve_left (hmem c2 (by simp)) hd2
          subst hdot2
          constructor
          · intro _
            rfl
          · intro _
            rw [List.takeWhile_cons_of_neg (by decide)]
            simp

theorem stripNonNumeric_mem (raw : String) :
    ∀ c ∈ stripNonNumeric raw, c.isDigit = true ∨ c = '.' := by
  intro c hc
  have h := (List.mem_filter.mp hc).2
  cases hdig : c.isDigit with
  | true => exact Or.inl rfl
  | false =>
    rw [hdig] at h
    simp at h
    exact Or.inr h

theorem noNumPrefix_of_no_digits :
    ∀ (cs : List Char), (∀ c ∈ cs, c.isDigit = false) → noNumPrefix cs = true := by
  intro cs h
  cases cs with
  | nil => rfl
  | cons c rest =>
    cases rest with
    | nil => simp [noNumPrefix, h c (by simp)]
    | cons c2 t => simp [noNumPrefix, h c (by simp), h c2 (by simp)]

/-- C5 counterexample: "1.2.3" keeps multiple decimal points after
stripping, so the remainder is not a valid number; the claim says
parseClose fails, but the code's parseFloat accepts the longest valid
prefix and returns 1.2. -/
theorem parseClose_two_dots_parses :
    parseClose "1.2.3" = some (mkRat 6 5) := by
  decide

/-- C5 (amended): parseClose strips every character that is not a digit or
decimal point and parses the longest numeric prefix of the remainder: it
returns the correct decimal for noisy formats such as "41,985.63" and
"$ 383.32 ", it fails for every string with no digits, and in general it
fails exactly when the stripped remainder is empty or starts with a decimal
point not followed by a digit — a remainder with extra decimal points after
a valid prefix parses to that prefix instead of failing. -/
theorem parseClose_normalization :
    parseClose "41,985.63" = some (mkRat 4198563 100) ∧
    parseClose "$ 383.32 " = some (mkRat 38332 100) ∧
    (∀ raw : String, (∀ c ∈ raw.data, c.isDigit = false) → parseClose raw = none) ∧
    (∀ raw : String,
      parseClose raw = none ↔ noNumPrefix (stripNonNumeric raw) = true) := by
  refine ⟨by decide, by decide, ?_, ?_⟩
  · intro raw hnd
    have hiff := parseFloatPrefix_none_iff (stripNonNumeric_mem raw)
    unfold parseClose
    rw [hiff]
    apply noNumPrefix_of_no_digits
    intro c hc
    exact hnd c (List.mem_filter.mp hc).1
  · intro raw
    exact parseFloatPrefix_none_iff (stripNonNumeric_mem raw)

/-- Witness for `parseClose_normalization`: a digit-free string fails. -/
theorem parseClose_normalization_witness :
    parseClose "abc" = none :=
  parseClose_normalization.2.2.1 "abc" (by decide)

/-! ## Fetcher and orchestrator lemmas (C6, C7, C8) -/

/-- C6: with the source defaults (3 attempts, 1000 ms), the retry loop
returns the first successful attempt's body without further attempts, waits
1000 ms between consecutive attempts, and after three failures surfaces the
third attempt's error. -/
theorem fetchWithRetry_attempts {ε ρ : Type} (trace : Nat → Except ε ρ) :
    (∀ r : ρ, trace 1 = Except.ok r →
      fetchWithRetry trace 3 1000 = (Except.ok r, [], 1)) ∧
    (∀ (e1 : ε) (r : ρ), trace 1 = Except.error e1 → trace 2 = Except.ok r →
      fetchWithRetry trace 3 1000 = (Except.ok r, [1000], 2)) ∧
    (∀ (e1 e2 : ε) (r : ρ), trace 1 = Except.error e1 → trace 2 = Except.error e2 →
      trace 3 = Except.ok r →
      fetchWithRetry trace 3 1000 = (Except.ok r, [1000, 1000], 3)) ∧
    (∀ (e1 e2 e3 : ε), trace 1 = Except.error e1 → trace 2 = Except.error e2 →
      trace 3 = Except.error e3 →
      fetchWithRetry trace 3 1000 = (Except.error e3, [1000, 1000], 3)) := by
  refine ⟨?_, ?_, ?_, ?_⟩
  · intro r h1
    simp only [fetchWithRetry]
    simp only [fetchAttemptsGo, h1]
  · intro e1 r h1 h2
    simp only [fetchWithRetry]
    simp only [fetchAttemptsGo, h1, h2]
  · intro e1 e2 r h1 h2 h3
    simp only [fetchWithRetry]
    simp only [fetchAttemptsGo, h1, h2, h3]
  · intro e1 e2 e3 h1 h2 h3
    simp only [fetchWithRetry]
    simp only [fetchAttemptsGo, h1, h2, h3]

/-- Witness for `fetchWithRetry_attempts`: a trace failing twice then
succeeding. -/
theorem fetchWithRetry_attempts_witness :
    fetchWithRetry (fun n => if n < 3 then Except.error "down" else Except.ok (42 : Nat))
      3 1000 = (Except.ok 42, [1000, 1000], 3) :=
  (fetchWithRetry_attempts
      (fun n => if n < 3 then Except.error "down" else Except.ok (42 : Nat))).2.2.1
    "down" "down" 42 rfl rfl rfl

/-- C7: a payload reporting success:false, or whose data field is not an
array of entries, aborts the run before any index is processed: with the
transport succeeding on the first attempt, the run performs exactly one
fetch attempt (the shape failure is not retried), reports aborted, and
leaves the store completely unchanged. -/
theorem run_aborts_on_shape_error (holiday : Cal → Nat → Bool)
    (trace : Nat → Except String ApiResponse) (yesterday : Nat)
    (store : List StoredRecord) (resp : ApiResponse)
    (h1 : trace 1 = Except.ok resp)
    (hbad : resp.success = false ∨ resp.data = none) :
    fullRun holiday trace yesterday store = (store, RunResult.aborted, 1) := by
  have hfetch : fetchWithRetry trace 3 1000 = (Except.ok resp, [], 1) := by
    simp only [fetchWithRetry]
    simp only [fetchAttemptsGo, h1]
  have hrp : runPipeline holiday resp yesterday store = (store, RunResult.aborted) := by
    unfold runPipeline
    cases hd : resp.data with
    | none => rfl
    | some apiData =>
      cases hs : resp.success with
      | false => rfl
      | true =>
        exfalso
        rcases hbad with h | h
        · rw [hs] at h
          exact Bool.noConfusion h
        · rw [hd] at h
          exact Option.noConfusion h
  unfold fullRun
  rw [hfetch]
  show (let p := runPipeline holiday resp yesterday store; (p.1, p.2, 1)) =
    (store, RunResult.aborted, 1)
  rw [hrp]

/-- Witness for `run_aborts_on_shape_error`: a success:false payload on a
non-empty holiday-free world, with an empty store. -/
theorem run_aborts_on_shape_error_witness :
    fullRun (fun _ _ => false) (fun _ => Except.ok ⟨false, none⟩) 7 [] =
      ([], RunResult.aborted, 1) :=
  run_aborts_on_shape_error (fun _ _ => false) (fun _ => Except.ok ⟨false, none⟩) 7 []
    ⟨false, none⟩ rfl (Or.inl rfl)

/-- C8 counterexample: a payload {success:false} makes the run abort, yet
the trigger endpoint responds HTTP 200 with success:true — the run
procedure catches all its errors and resolves normally
(src/index.js:235-238), so the endpoint's 500 branch never sees a run
failure. -/
theorem trigger_reports_success_on_abort :
    triggerHandler (fun _ _ => false) (fun _ => Except.ok ⟨false, none⟩) 7 [] =
      ([], 200, true) ∧
    (runPipeline (fun _ _ => false) ⟨false, none⟩ 7 []).2 = RunResult.aborted := by
  exact ⟨rfl, rfl⟩

/-- C8 (amended): the trigger endpoint executes one run synchronously and
ALWAYS reports success (HTTP 200, success:true), whether or not the run
aborted: fetchAndStoreIndicesData catches every failure internally and
resolves normally, so the endpoint's failure branch is unreachable from run
failures; the store is left exactly as the run leaves it. -/
theorem trigger_always_success (holiday : Cal → Nat → Bool)
    (trace : Nat → Except String ApiResponse) (yesterday : Nat)
    (store : List StoredRecord) :
    triggerHandler holiday trace yesterday store =
      ((fullRun holiday trace yesterday store).1, 200, true) := rfl

/-! ## Per-run pipeline lemmas (C9) -/

theorem mem_setCloseFirst_of_not_match {key : String} {d : Nat} {c : Rat} :
    ∀ {s : List StoredRecord} {r : StoredRecord}, r ∈ s →
      ¬(r.index = key ∧ r.date = d) → r ∈ setCloseFirst s key d c := by
  intro s
  induction s with
  | nil => intro r h; exact absurd h (by simp)
  | cons o os ih =>
    intro r hr hnm
    simp only [setCloseFirst]
    by_cases hm : (o.index == key && o.date == d) = true
    · rw [if_pos hm]
      rcases List.mem_cons.mp hr with h1 | h2
      · exfalso
        apply hnm
        rw [h1]
        exact ⟨eq_of_beq (band_elim hm).1, eq_of_beq (band_elim hm).2⟩
      · exact List.mem_cons_of_mem _ h2
    · rw [if_neg hm]
      rcases List.mem_cons.mp hr with h1 | h2
      · rw [h1]
        exact List.mem_cons_self _ _
      · exact List.mem_cons_of_mem _ (ih h2 hnm)

theorem mem_setCloseFirst_origin {key : String} {d : Nat} {c : Rat} :
    ∀ {s : List StoredRecord} {r : StoredRecord},
      r ∈ setCloseFirst s key d c → r ∈ s ∨ r.index = key := by
  intro s
  induction s with
  | nil => intro r h; exact absurd h (by simp [setCloseFirst])
  | cons o os ih =>
    intro r hr
    simp only [setCloseFirst] at hr
    by_cases hm : (o.index == key && o.date == d) = true
    · rw [if_pos hm] at hr
      rcases List.mem_cons.mp hr with h1 | h2
      · right
        rw [h1]
        exact eq_of_beq (band_elim hm).1
      · exact Or.inl (List.mem_cons_of_mem _ h2)
    · rw [if_neg hm] at hr
      rcases List.mem_cons.mp hr with h1 | h2
      · rw [h1]
        exact Or.inl (List.mem_cons_self o os)
      · rcases ih h2 with h3 | h3
        · exact Or.inl (List.mem_cons_of_mem _ h3)
        · exact Or.inr h3

theorem mem_upsertOne_of_ne {s : List StoredRecord} {key : String} {d : Nat} {c : Rat}
    {r : StoredRecord} (hr : r ∈ s) (hne : r.index ≠ key) :
    r ∈ upsertOne s key d c := by
  unfold upsertOne
  by_cases h : hasKeyDate s key d = true
  · rw [if_pos h]
    exact mem_setCloseFirst_of_not_match hr (fun hc => hne hc.1)
  · rw [if_neg h]
    exact List.mem_append.mpr (Or.inl hr)

theorem mem_upsertOne_origin {s : List StoredRecord} {key : String} {d : Nat} {c : Rat}
    {r : StoredRecord} (hr : r ∈ upsertOne s key d c) : r ∈ s ∨ r.index = key := by
  unfold upsertOne at hr
  by_cases h : hasKeyDate s key d = true
  · rw [if_pos h] at hr
    exact mem_setCloseFirst_origin hr
  · rw [if_neg h] at hr
    rcases List.mem_append.mp hr with h1 | h2
    · exact Or.inl h1
    · simp at h2
      right
      rw [h2]

theorem reconcileStep_mem_preserve {s : List StoredRecord} {key : String} {d : Nat}
    {c : Rat} {r : StoredRecord} (hr : r ∈ s) (hne : r.index ≠ key) :
    r ∈ (reconcileStep s key d c).1 := by
  cases hfl : findLatest s key with
  | none =>
    rw [reconcileStep_eq_none s key d c hfl]
    exact mem_upsertOne_of_ne hr hne
  | some last =>
    by_cases hc : last.date = d ∧ last.close = c
    · rw [reconcileStep_eq_skip s key d c last hfl hc]
      exact hr
    · rw [reconcileStep_eq_write s key d c last hfl hc]
      exact mem_upsertOne_of_ne hr hne

theorem reconcileStep_mem_origin {s : List StoredRecord} {key : String} {d : Nat}
    {c : Rat} {r : StoredRecord} (hr : r ∈ (reconcileStep s key d c).1) :
    r ∈ s ∨ r.index = key := by
  cases hfl : findLatest s key with
  | none =>
    rw [reconcileStep_eq_none s key d c hfl] at hr
    exact mem_upsertOne_origin hr
  | some last =>
    by_cases hc : last.date = d ∧ last.close = c
    · rw [reconcileStep_eq_skip s key d c last hfl hc] at hr
      exact Or.inl hr
    · rw [reconcileStep_eq_write s key d c last hfl hc] at hr
      exact mem_upsertOne_origin hr

theorem reconcileStep_fresh_append (s : List StoredRecord) (key : String) (d : Nat)
    (c : Rat) (hfr : ∀ r ∈ s, r.index ≠ key) :
    (reconcileStep s key d c).1 = s ++ [⟨key, d, c⟩] := by
  rw [reconcileStep_eq_none s key d c (findLatest_eq_none.mpr hfr)]
  show upsertOne s key d c = s ++ [⟨key, d, c⟩]
  unfold upsertOne
  have hkd : hasKeyDate s key d = false :=
    hasKeyDate_false_iff.mpr (fun r hr hc => hfr r hr hc.1)
  rw [if_neg (by rw [hkd]; exact Bool.false_ne_true)]

theorem processIndex_eq_notFound (holiday : Cal → Nat → Bool)
    (apiData : List SnapshotEntry) (yesterday : Nat) (s : List StoredRecord)
    (ti : TrackedIndex) (hfe : findEntry apiData ti.label = none) :
    processIndex holiday apiData yesterday s ti = (s, StepOutcome.notFound) := by
  unfold processIndex
  rw [hfe]

theorem processIndex_eq_holiday (holiday : Cal → Nat → Bool)
    (apiData : List SnapshotEntry) (yesterday : Nat) (s : List StoredRecord)
    (ti : TrackedIndex) (e : SnapshotEntry)
    (hfe : findEntry apiData ti.label = some e)
    (hh : holiday ti.holidayCalendar yesterday = true) :
    processIndex holiday apiData yesterday s ti = (s, StepOutcome.holidaySkip) := by
  unfold processIndex
  simp only [hfe]
  rw [if_pos hh]

theorem processIndex_eq_parseFail (holiday : Cal → Nat → Bool)
    (apiData : List SnapshotEntry) (yesterday : Nat) (s : List StoredRecord)
    (ti : TrackedIndex) (e : SnapshotEntry)
    (hfe : findEntry apiData ti.label = some e)
    (hh : holiday ti.holidayCalendar yesterday = false)
    (hp : parseClose e.prev_close = none) :
    processIndex holiday apiData yesterday s ti = (s, StepOutcome.parseFail) := by
  unfold processIndex
  simp only [hfe]
  rw [if_neg (by rw [hh]; exact Bool.false_ne_true)]
  simp only [hp]

theorem processIndex_eq_write (holiday : Cal → Nat → Bool)
    (apiData : List SnapshotEntry) (yesterday : Nat) (s : List StoredRecord)
    (ti : TrackedIndex) (e : SnapshotEntry) (c : Rat)
    (hfe : findEntry apiData ti.label = some e)
    (hh : holiday ti.holidayCalendar yesterday = false)
    (hp : parseClose e.prev_close = some c) :
    (processIndex holiday apiData yesterday s ti).1 =
      (reconcileStep s ti.key yesterday c).1 := by
  unfold processIndex
  simp only [hfe]
  rw [if_neg (by rw [hh]; exact Bool.false_ne_true)]
  simp only [hp]
  rcases hrs : reconcileStep s ti.key yesterday c with ⟨s2, res⟩
  cases res
  · rfl
  · rfl

theorem processIndex_mem_preserve (holiday : Cal → Nat → Bool)
    (apiData : List SnapshotEntry) (yesterday : Nat) (ti : TrackedIndex)
    {s : List StoredRecord} {r : StoredRecord} (hr : r ∈ s) (hne : r.index ≠ ti.key) :
    r ∈ (processIndex holiday apiData yesterday s ti).1 := by
  cases hfe : findEntry apiData ti.label with
  | none =>
    rw [processIndex_eq_notFound _ _ _ _ _ hfe]
    exact hr
  | some e =>
    cases hh : holiday ti.holidayCalendar yesterday with
    | true =>
      rw [processIndex_eq_holiday _ _ _ _ _ _ hfe hh]
      exact hr
    | false =>
      cases hp : parseClose e.prev_close with
      | none =>
        rw [processIndex_eq_parseFail _ _ _ _ _ _ hfe hh hp]
        exact hr
      | some c =>
        rw [processIndex_eq_write _ _ _ _ _ _ _ hfe hh hp]
        exact reconcileStep_mem_preserve hr hne

theorem processIndex_mem_origin (holiday : Cal → Nat → Bool)
    (apiData : List SnapshotEntry) (yesterday : Nat) (ti : TrackedIndex)
    {s : List StoredRecord} {r : StoredRecord}
    (hr : r ∈ (processIndex holiday apiData yesterday s ti).1) :
    r ∈ s ∨ r.index = ti.key := by
  cases hfe : findEntry apiData ti.label with
  | none =>
    rw [processIndex_eq_notFound _ _ _ _ _ hfe] at hr
    exact Or.inl hr
  | some e =>
    cases hh : holiday ti.holidayCalendar yesterday with
    | true =>
      rw [processIndex_eq_holiday _ _ _ _ _ _ hfe hh] at hr
      exact Or.inl hr
    | false =>
      cases hp : parseClose e.prev_close with
      | none =>
        rw [processIndex_eq_parseFail _ _ _ _ _ _ hfe hh hp] at hr
        exact Or.inl hr
      | some c =>
        rw [processIndex_eq_write _ _ _ _ _ _ _ hfe hh hp] at hr
        exact reconcileStep_mem_origin hr

theorem pipelineFold_mem_preserve (holiday : Cal → Nat → Bool)
    (apiData : List SnapshotEntry) (yesterday : Nat) :
    ∀ (tis : List TrackedIndex) (s : List StoredRecord) (r : StoredRecord),
      r ∈ s → (∀ ti ∈ tis, r.index ≠ ti.key) →
      r ∈ (pipelineFold holiday apiData yesterday tis s).1 := by
  intro tis
  induction tis with
  | nil => intro s r hr _; exact hr
  | cons ti tis ih =>
    intro s r hr hall
    simp only [pipelineFold]
    apply ih
    · exact processIndex_mem_preserve holiday apiData yesterday ti hr
        (hall ti (List.mem_cons_self ti tis))
    · intro t ht
      exact hall t (List.mem_cons_of_mem _ ht)

theorem pipelineFold_mem_origin (holiday : Cal → Nat → Bool)
    (apiData : List SnapshotEntry) (yesterday : Nat) :
    ∀ (tis : List TrackedIndex) (s : List StoredRecord) (r : StoredRecord),
      r ∈ (pipelineFold holiday apiData yesterday tis s).1 →
      r ∈ s ∨ ∃ ti ∈ tis, r.index = ti.key := by
  intro tis
  induction tis with
  | nil => intro s r hr; exact Or.inl hr
  | cons ti tis ih =>
    intro s r hr
    simp only [pipelineFold] at hr
    rcases ih _ r hr with h1 | ⟨t, ht, hk⟩
    · rcases processIndex_mem_origin holiday apiData yesterday ti h1 with h2 | h2
      · exact Or.inl h2
      · exact Or.inr ⟨ti, List.mem_cons_self ti tis, h2⟩
    · exact Or.inr ⟨t, List.mem_cons_of_mem _ ht, hk⟩

theorem pipelineFold_no_write_key (holiday : Cal → Nat → Bool)
    (apiData : List SnapshotEntry) (yesterday : Nat) :
    ∀ (tis : List TrackedIndex) (s : List StoredRecord) (r : StoredRecord),
      r ∈ (pipelineFold holiday apiData yesterday tis s).1 →
      (∀ ti ∈ tis, ti.key = r.index →
        ∀ s2, (processIndex holiday apiData yesterday s2 ti).1 = s2) →
      r ∈ s := by
  intro tis
  induction tis with
  | nil => intro s r hr _; exact hr
  | cons ti tis ih =>
    intro s r hr hall
    simp only [pipelineFold] at hr
    have h1 : r ∈ (processIndex holiday apiData yesterday s ti).1 :=
      ih _ r hr (fun t ht => hall t (List.mem_cons_of_mem _ ht))
    rcases processIndex_mem_origin holiday apiData yesterday ti h1 with h2 | h2
    · exact h2
    · have heq := hall ti (List.mem_cons_self ti tis) h2.symm s
      rw [heq] at h1
      exact h1

theorem pipelineFold_append (holiday : Cal → Nat → Bool)
    (apiData : List SnapshotEntry) (yesterday : Nat) :
    ∀ (t1 t2 : List TrackedIndex) (s : List StoredRecord),
      (pipelineFold holiday apiData yesterday (t1 ++ t2) s).1 =
        (pipelineFold holiday apiData yesterday t2
          (pipelineFold holiday apiData yesterday t1 s).1).1 := by
  intro t1
  induction t1 with
  | nil => intro t2 s; rfl
  | cons ti t1 ih =>
    intro t2 s
    simp only [List.cons_append, pipelineFold]
    exact ih t2 _

theorem runPipeline_store (holiday : Cal → Nat → Bool) (resp : ApiResponse)
    (yesterday : Nat) (store : List StoredRecord) (apiData : List SnapshotEntry)
    (hresp : resp.success = true) (hdata : resp.data = some apiData) :
    (runPipeline holiday resp yesterday store).1 =
      (pipelineFold holiday apiData yesterday indices store).1 := by
  unfold runPipeline
  rw [hdata, hresp]

/-- C9: in a run whose payload is structurally valid, take tracked indices
X and Y whose entries resolve, with the previous trading day a holiday on
X's market calendar but not on Y's, Y's raw value parsing to cY, the store
holding no record for Y's key yet, and tracked keys identifying their
indices uniquely.  Then the run stores the record (Y.key, yesterday, cY),
stores nothing for X (every record with X's key in the final store was
already in the initial store), and X's step is a pure holiday skip: it
leaves any store unchanged and reports holidaySkip, not an error. -/
theorem holiday_skip_exclusive
    (holiday : Cal → Nat → Bool) (resp : ApiResponse) (apiData : List SnapshotEntry)
    (yesterday : Nat) (store : List StoredRecord)
    (X Y : TrackedIndex) (eX eY : SnapshotEntry) (cY : Rat)
    (hresp : resp.success = true) (hdata : resp.data = some apiData)
    (hX : X ∈ indices) (hY : Y ∈ indices) (hnodup : indices.Nodup)
    (hXuniq : ∀ ti ∈ indices, ti.key = X.key → ti = X)
    (hYuniq : ∀ ti ∈ indices, ti.key = Y.key → ti = Y)
    (hXhol : holiday X.holidayCalendar yesterday = true)
    (hYhol : holiday Y.holidayCalendar yesterday = false)
    (hfX : findEntry apiData X.label = some eX)
    (hfY : findEntry apiData Y.label = some eY)
    (hpY : parseClose eY.prev_close = some cY)
    (hfresh : ∀ r ∈ store, r.index ≠ Y.key) :
    (⟨Y.key, yesterday, cY⟩ : StoredRecord) ∈ (runPipeline holiday resp yesterday store).1 ∧
    (∀ r ∈ (runPipeline holiday resp yesterday store).1, r.index = X.key → r ∈ store) ∧
    (∀ s2 : List StoredRecord,
      processIndex holiday apiData yesterday s2 X = (s2, StepOutcome.holidaySkip)) := by
  have hXskip : ∀ s2 : List StoredRecord,
      processIndex holiday apiData yesterday s2 X = (s2, StepOutcome.holidaySkip) :=
    fun s2 => processIndex_eq_holiday holiday apiData yesterday s2 X eX hfX hXhol
  have hrun := runPipeline_store holiday resp yesterday store apiData hresp hdata
  refine ⟨?_, ?_, hXskip⟩
  · rw [hrun]
    rcases List.append_of_mem hY with ⟨pre, post, hsplit⟩
    have hYpre : Y ∉ pre := by
      rw [hsplit] at hnodup
      rcases List.nodup_append.mp hnodup with ⟨_, _, hdisj⟩
      intro hYp
      exact hdisj hYp (List.mem_cons_self _ _)
    have hYpost : Y ∉ post := by
      rw [hsplit] at hnodup
      rcases List.nodup_append.mp hnodup with ⟨_, h2, _⟩
      exact (List.nodup_cons.mp h2).1
    have hprekey : ∀ ti ∈ pre, ti.key ≠ Y.key := by
      intro ti hti hk
      have hty : ti = Y := hYuniq ti
        (by rw [hsplit]; exact List.mem_append.mpr (Or.inl hti)) hk
      rw [hty] at hti
      exact hYpre hti
    have hpostkey : ∀ ti ∈ post, ti.key ≠ Y.key := by
      intro ti hti hk
      have hty : ti = Y := hYuniq ti
        (by
          rw [hsplit]
          exact List.mem_append.mpr (Or.inr (List.mem_cons_of_mem _ hti))) hk
      rw [hty] at hti
      exact hYpost hti
    rw [hsplit]
    rw [pipelineFold_append holiday apiData yesterday pre (Y :: post) store]
    have hs1 : ∀ r ∈ (pipelineFold holiday apiData yesterday pre store).1,
        r.index ≠ Y.key := by
      intro r hr hk
      rcases pipelineFold_mem_origin holiday apiData yesterday pre store r hr with
        h1 | ⟨ti, hti, hkey⟩
      · exact hfresh r h1 hk
      · exact hprekey ti hti (hkey.symm.trans hk)
    have hwrite : (processIndex holiday apiData yesterday
        (pipelineFold holiday apiData yesterday pre store).1 Y).1 =
        (pipelineFold holiday apiData yesterday pre store).1 ++
          [⟨Y.key, yesterday, cY⟩] := by
      rw [processIndex_eq_write holiday apiData yesterday _ Y eY cY hfY hYhol hpY]
      exact reconcileStep_fresh_append _ _ _ _ hs1
    simp only [pipelineFold]
    apply pipelineFold_mem_preserve holiday apiData yesterday post
    · rw [hwrite]
      exact List.mem_append.mpr (Or.inr (by simp))
    · intro t ht heq
      exact hpostkey t ht heq.symm
  · intro r hr hrX
    rw [hrun] at hr
    apply pipelineFold_no_write_key holiday apiData yesterday indices store r hr
    intro ti hti hkey
    have hti2 : ti = X := hXuniq ti hti (by rw [hkey]; exact hrX)
    rw [hti2]
    intro s2
    rw [hXskip s2]

/-- Witness for `holiday_skip_exclusive`: previous day is a US holiday, the
Dow (US calendar) is skipped while the Nikkei (JP calendar) is stored. -/
theorem holiday_skip_exclusive_witness :
    (⟨"nikkei", 7, (200 : Rat)⟩ : StoredRecord) ∈
      (runPipeline (fun c _ => decide (c = Cal.US))
        ⟨true, some [⟨"Dow Jones", "100"⟩, ⟨"NIKKEI 225", "200"⟩]⟩ 7 []).1 :=
  (holiday_skip_exclusive (fun c _ => decide (c = Cal.US))
    ⟨true, some [⟨"Dow Jones", "100"⟩, ⟨"NIKKEI 225", "200"⟩]⟩
    [⟨"Dow Jones", "100"⟩, ⟨"NIKKEI 225", "200"⟩] 7 []
    ⟨"dow", "Dow", Cal.US⟩ ⟨"nikkei", "NIKKEI", Cal.JP⟩
    ⟨"Dow Jones", "100"⟩ ⟨"NIKKEI 225", "200"⟩ 200
    rfl rfl (by decide) (by decide) (by decide) (by decide) (by decide)
    (by decide) (by decide) (by decide) (by decide) (by decide) (by simp)).1

end GlobalIndices
